import Mathlib

/-!
Verification of the BLE transport adapter (`RNS/Interfaces/BluetoothInterface.py`).

We shallowly embed the transport core: the inbound frame handler
`process_bluetooth_data` (handshake-marker drop, minimum frame length,
deduplication window `last_packet_ids`, reassembly map `rx_fragments`),
the outbound fragmenter `fragment_packet`, the per-connection write drain of
`_attempt_connection`, and the facade call `process_outgoing`.

Bytes are modelled as lists of naturals (each intended `< 256`).  Python dicts
are modelled as association lists with insert-or-overwrite update (preserving
entry order, appending fresh keys at the tail), matching CPython dict
semantics for the operations the source performs: membership test, item
assignment, `len`, iteration-free indexed lookup, and `del`.  The Python set
`last_packet_ids` is modelled as a `Finset`.  Deliveries to
`process_incoming` are returned explicitly as the list of delivered payloads.
-/

namespace BluetoothV

/-- Byte strings, as lists of naturals (each intended to be `< 256`). -/
abbrev Bytes := List Nat

/-- Conservative BLE advertisement data size (`BLE_MAX_PAYLOAD = 27`). -/
def BLE_MAX_PAYLOAD : Nat := 27

/-- Negotiated MTU: the source computes `self.HW_MTU = self.BLE_MAX_PAYLOAD - 4`
with the comment "Reserve bytes for framing". -/
def HW_MTU : Nat := BLE_MAX_PAYLOAD - 4

/-- Size of the on-wire frame header `bytes([packet_id, fragment_num, len(fragments)])`
built in `_attempt_connection`: exactly three bytes. -/
def frameHeaderSize : Nat := 3

/-- The four bytes of the handshake marker `b"RNS:"` (`R` = 82, `N` = 78,
`S` = 83, `:` = 58) tested by `data.startswith(b"RNS:")`. -/
def handshakeMarker : Bytes := [82, 78, 83, 58]

/-- Insert-or-overwrite on an association list keyed by naturals: Python's
`d[k] = v`.  An existing key keeps its position; a fresh key is appended. -/
def dictInsert {β : Type} (m : List (Nat × β)) (k : Nat) (v : β) : List (Nat × β) :=
  if (m.lookup k).isSome then m.map (fun p => if p.1 = k then (k, v) else p)
  else m ++ [(k, v)]

/-- Key removal on an association list: Python's `del d[k]`. -/
def dictErase {β : Type} (m : List (Nat × β)) (k : Nat) : List (Nat × β) :=
  m.filter (fun p => p.1 ≠ k)

/-- Receiver-side mutable state of the interface: the reassembly map
`self.rx_fragments` (packet id → fragment index → fragment bytes) and the
deduplication window `self.last_packet_ids`. -/
structure BTState where
  rx_fragments : List (Nat × List (Nat × Bytes))
  last_packet_ids : Finset Nat
deriving DecidableEq

/-- State of a freshly constructed interface: both containers empty. -/
def initState : BTState := ⟨[], ∅⟩

/-- Reassembly loop of `process_bluetooth_data`:
`for i in range(total_fragments): if i in d: full_packet += d[i]`. -/
def reassembleStored (inner : List (Nat × Bytes)) (total : Nat) : Bytes :=
  ((List.range total).map (fun i => (inner.lookup i).getD [])).flatten

/-- Window update performed after recording a delivered packet id:
`self.last_packet_ids.add(packet_id)` followed by
`if len(self.last_packet_ids) > 100: self.last_packet_ids.clear()`. -/
def recordPacketId (ids : Finset Nat) (pid : Nat) : Finset Nat :=
  if 100 < (insert pid ids).card then ∅ else insert pid ids

/-- One invocation of `process_bluetooth_data(data, source_addr)`.  Returns the
successor state together with the list of payloads handed to
`process_incoming` (empty or a singleton). -/
def process_bluetooth_data (s : BTState) (data : Bytes) : BTState × List Bytes :=
  if data.take 4 = handshakeMarker then (s, [])
  else if data.length < 4 then (s, [])
  else
    let packet_id := data.getD 0 0
    let fragment_num := data.getD 1 0
    let total_fragments := data.getD 2 0
    let fragment_data := data.drop 3
    if packet_id ∈ s.last_packet_ids then (s, [])
    else if total_fragments = 1 then
      ({ s with last_packet_ids := recordPacketId s.last_packet_ids packet_id },
       [fragment_data])
    else
      let inner := dictInsert ((s.rx_fragments.lookup packet_id).getD [])
        fragment_num fragment_data
      if inner.length = total_fragments then
        ({ rx_fragments := dictErase (dictInsert s.rx_fragments packet_id inner) packet_id,
           last_packet_ids := recordPacketId s.last_packet_ids packet_id },
         [reassembleStored inner total_fragments])
      else
        ({ s with rx_fragments := dictInsert s.rx_fragments packet_id inner }, [])

/-- Feed a sequence of inbound frames, accumulating all deliveries. -/
def run : BTState → List Bytes → BTState × List Bytes
  | s, [] => (s, [])
  | s, d :: ds =>
    let r := process_bluetooth_data s d
    let rest := run r.1 ds
    (rest.1, r.2 ++ rest.2)

/-- Chunking loop of `fragment_packet`:
`for i in range(0, len(data), max_fragment_size): fragments.append(data[i:i+max_fragment_size])`.
The fuel argument bounds the recursion; `fragment_packet` supplies
`data.length`, which suffices whenever `mtu ≥ 1` (with `mtu = 0` the Python
loop would raise `ValueError`, a case outside every claim). -/
def chunksAux : Nat → Nat → Bytes → List Bytes
  | 0, _, _ => []
  | _, _, [] => []
  | fuel + 1, mtu, data => data.take mtu :: chunksAux fuel mtu (data.drop mtu)

/-- Fragment list produced by `fragment_packet(data)` with
`max_fragment_size = mtu`.  The packet id (`hash((data, time.time())) % 256`,
nondeterministic through the clock) is modelled as an external parameter
`pid < 256` wherever frames are built. -/
def fragment_packet (mtu : Nat) (data : Bytes) : List Bytes :=
  chunksAux data.length mtu data

/-- The frame built for fragment index `i` of fragment list `cs`:
`bytes([packet_id, fragment_num, total]) + fragment_data`. -/
def frameFor (pid total : Nat) (cs : List Bytes) (i : Nat) : Bytes :=
  [pid, i, total] ++ cs.getD i []

/-- Frames written by the transmit loop of `_attempt_connection`, in loop
order: `enumerate(fragments)` with `total = len(fragments)`. -/
def mkFrames (pid : Nat) (cs : List Bytes) : List Bytes :=
  (List.range cs.length).map (frameFor pid cs.length cs)

/-- Write phase of one `_attempt_connection` cycle against a writable
characteristic: if the transmit queue is non-empty, `self.tx_queue.pop(0)`
removes the head payload and its frames are written in loop order.  Returns
the successor queue and the written frames. -/
def attempt_connection_write (mtu pid : Nat) (tx_queue : List Bytes) :
    List Bytes × List Bytes :=
  match tx_queue with
  | [] => ([], [])
  | d :: rest => (rest, mkFrames pid (fragment_packet mtu d))

/-- `process_outgoing(data)`: appends to `self.tx_queue` only while
`self.online`; otherwise the call falls through and the queue is untouched. -/
def process_outgoing (online : Bool) (tx_queue : List Bytes) (data : Bytes) :
    List Bytes :=
  if online then tx_queue ++ [data] else tx_queue

/-- Modelled from the spec: the point-to-point connection supervisor
(`peer_address` / `connection_interval` mode) is not present under the
sources — only a client configuration referencing it is.  Per the spec, any
connect failure transitions back to `Disconnected` after a fixed 2-second
backoff and the retry cadence stays at the configured `connection_interval`,
with no exponential growth and no retry ceiling.  `p2pRetryInterval ci k`
is the retry interval, in seconds, after `k` consecutive failed attempts. -/
def p2pRetryInterval (connection_interval : Nat) (consecutiveFailures : Nat) : Nat :=
  connection_interval + 2

/-! ### Proof scaffolding

`innerOf cs l` is the reassembly entry holding, for each index `i` of `l` in
arrival order, the fragment `cs.getD i []`; `stOf pid cs l` is the receiver
state in the middle of reassembling packet `pid` after exactly the indices of
`l` have arrived. -/

/-- Reassembly entry after the fragment indices of `l` arrived, in that order. -/
def innerOf (cs : List Bytes) (l : List Nat) : List (Nat × Bytes) :=
  l.map (fun i => (i, cs.getD i []))

/-- Receiver state mid-reassembly of packet `pid`, indices of `l` arrived. -/
def stOf (pid : Nat) (cs : List Bytes) (l : List Nat) : BTState :=
  ⟨if l = [] then [] else [(pid, innerOf cs l)], ∅⟩

/-! ### Generic list and dictionary lemmas -/

theorem getD_mem {α : Type} (cs : List α) (d : α) (i : Nat) (h : i < cs.length) :
    cs.getD i d ∈ cs := by
  rw [List.getD_eq_getElem cs d h]
  exact List.getElem_mem h

theorem map_getD_range {α : Type} (d : α) :
    ∀ cs : List α, (List.range cs.length).map (fun i => cs.getD i d) = cs
  | [] => rfl
  | c :: cs => by
    rw [List.length_cons, List.range_succ_eq_map, List.map_cons, List.map_map]
    simp only [List.getD_cons_zero, Function.comp_def, Nat.succ_eq_add_one,
      List.getD_cons_succ]
    rw [map_getD_range d cs]

theorem lookup_innerOf_of_not_mem (cs : List Bytes) (l : List Nat) (j : Nat)
    (h : j ∉ l) : (innerOf cs l).lookup j = none := by
  induction l with
  | nil => rfl
  | cons i l ih =>
    simp only [List.mem_cons, not_or] at h
    have hb : (j == i) = false := beq_eq_false_iff_ne.mpr h.1
    simp only [innerOf, List.map_cons, List.lookup_cons, hb]
    exact ih h.2

theorem lookup_innerOf_of_mem (cs : List Bytes) (l : List Nat) (i : Nat)
    (h : i ∈ l) : (innerOf cs l).lookup i = some (cs.getD i []) := by
  induction l with
  | nil => cases h
  | cons a l ih =>
    by_cases hia : i = a
    · subst hia
      simp [innerOf, List.lookup_cons]
    · have hmem : i ∈ l := (List.mem_cons.mp h).resolve_left hia
      have hb : (i == a) = false := beq_eq_false_iff_ne.mpr hia
      simp only [innerOf, List.map_cons, List.lookup_cons, hb]
      exact ih hmem

theorem innerOf_append_single (cs : List Bytes) (l : List Nat) (j : Nat) :
    innerOf cs (l ++ [j]) = innerOf cs l ++ [(j, cs.getD j [])] := by
  simp [innerOf]

theorem innerOf_length (cs : List Bytes) (l : List Nat) :
    (innerOf cs l).length = l.length := by
  simp [innerOf]

theorem dictInsert_of_lookup_none {β : Type} (m : List (Nat × β)) (k : Nat) (v : β)
    (h : m.lookup k = none) : dictInsert m k v = m ++ [(k, v)] := by
  simp [dictInsert, h]

theorem dictInsert_mem {β : Type} (m : List (Nat × β)) (k : Nat) (v : β) :
    ∀ p ∈ dictInsert m k v, p ∈ m ∨ p = (k, v) := by
  intro p hp
  unfold dictInsert at hp
  by_cases hs : (m.lookup k).isSome
  · rw [if_pos hs] at hp
    obtain ⟨q, hq, hqe⟩ := List.mem_map.mp hp
    by_cases hqk : q.1 = k
    · right
      rw [if_pos hqk] at hqe
      exact hqe.symm
    · left
      rw [if_neg hqk] at hqe
      exact hqe ▸ hq
  · rw [if_neg hs] at hp
    rcases List.mem_append.mp hp with h | h
    · exact Or.inl h
    · exact Or.inr (List.mem_singleton.mp h)

theorem mem_of_nodup_bound_length (l : List Nat) (n : Nat) (hnd : l.Nodup)
    (hlt : ∀ i ∈ l, i < n) (hlen : l.length = n) : ∀ i, i < n → i ∈ l := by
  intro i hi
  have hsub : l.toFinset ⊆ Finset.range n := by
    intro x hx
    rw [Finset.mem_range]
    exact hlt x (List.mem_toFinset.mp hx)
  have hcard : (Finset.range n).card ≤ l.toFinset.card := by
    rw [Finset.card_range, List.toFinset_card_of_nodup hnd, hlen]
  rw [← List.mem_toFinset, Finset.eq_of_subset_of_card_le hsub hcard,
    Finset.mem_range]
  exact hi

theorem recordPacketId_empty (pid : Nat) : recordPacketId ∅ pid = {pid} := by
  simp [recordPacketId]

/-! ### Fragmentation lemmas -/

theorem chunksAux_flatten (mtu : Nat) (hm : 1 ≤ mtu) (fuel : Nat) :
    ∀ data : Bytes, data.length ≤ fuel → (chunksAux fuel mtu data).flatten = data := by
  induction fuel with
  | zero =>
    intro data h
    have hd : data = [] := List.length_eq_zero.mp (Nat.le_zero.mp h)
    subst hd
    rfl
  | succ fuel ih =>
    intro data h
    match data with
    | [] => rfl
    | d :: ds =>
      have hlen : (List.drop mtu (d :: ds)).length ≤ fuel := by
        rw [List.length_drop]
        simp only [List.length_cons] at h ⊢
        omega
      rw [show chunksAux (fuel + 1) mtu (d :: ds) =
            List.take mtu (d :: ds) :: chunksAux fuel mtu (List.drop mtu (d :: ds)) from rfl,
        List.flatten_cons, ih _ hlen, List.take_append_drop]

theorem chunksAux_mem_ne_nil (mtu : Nat) (hm : 1 ≤ mtu) (fuel : Nat) :
    ∀ (data c : Bytes), c ∈ chunksAux fuel mtu data → c ≠ [] := by
  induction fuel with
  | zero =>
    intro data c hc
    simp only [chunksAux, List.not_mem_nil] at hc
  | succ fuel ih =>
    intro data c hc
    match data with
    | [] => simp only [chunksAux, List.not_mem_nil] at hc
    | d :: ds =>
      rw [show chunksAux (fuel + 1) mtu (d :: ds) =
            List.take mtu (d :: ds) :: chunksAux fuel mtu (List.drop mtu (d :: ds)) from rfl] at hc
      rcases List.mem_cons.mp hc with h | h
      · obtain ⟨k, rfl⟩ := Nat.exists_eq_add_of_le hm
        subst h
        simp [List.take_succ_cons]
      · exact ih _ c h

theorem chunksAux_mem_length_le (mtu fuel : Nat) :
    ∀ (data c : Bytes), c ∈ chunksAux fuel mtu data → c.length ≤ mtu := by
  induction fuel with
  | zero =>
    intro data c hc
    simp only [chunksAux, List.not_mem_nil] at hc
  | succ fuel ih =>
    intro data c hc
    match data with
    | [] => simp only [chunksAux, List.not_mem_nil] at hc
    | d :: ds =>
      rw [show chunksAux (fuel + 1) mtu (d :: ds) =
            List.take mtu (d :: ds) :: chunksAux fuel mtu (List.drop mtu (d :: ds)) from rfl] at hc
      rcases List.mem_cons.mp hc with h | h
      · subst h
        exact List.length_take_le mtu (d :: ds)
      · exact ih _ c h

theorem fragment_packet_flatten (mtu : Nat) (hm : 1 ≤ mtu) (data : Bytes) :
    (fragment_packet mtu data).flatten = data :=
  chunksAux_flatten mtu hm data.length data le_rfl

theorem fragment_packet_mem_ne_nil (mtu : Nat) (hm : 1 ≤ mtu) (data c : Bytes)
    (hc : c ∈ fragment_packet mtu data) : c ≠ [] :=
  chunksAux_mem_ne_nil mtu hm data.length data c hc

theorem fragment_packet_mem_length_le (mtu : Nat) (data c : Bytes)
    (hc : c ∈ fragment_packet mtu data) : c.length ≤ mtu :=
  chunksAux_mem_length_le mtu data.length data c hc


/-! ### Behaviour of one inbound frame -/
theorem frameFor_not_marker_of_pid_ne (pid n : Nat) (cs : List Bytes) (h82 : pid ≠ 82)
    (j : Nat) : ¬ ((frameFor pid n cs j).take 4 = handshakeMarker) := by
  simp [frameFor, handshakeMarker, List.take_succ_cons, h82]

theorem frameFor_marker_index (pid n : Nat) (cs : List Bytes) (j : Nat)
    (h : (frameFor pid n cs j).take 4 = handshakeMarker) : j = 78 := by
  simp only [frameFor, handshakeMarker, List.cons_append, List.nil_append,
    List.take_succ_cons, List.cons.injEq] at h
  exact h.2.1

theorem step_frame (pid n : Nat) (cs : List Bytes) (h2 : 2 ≤ n) (j : Nat)
    (hmk : ¬ ((frameFor pid n cs j).take 4 = handshakeMarker))
    (hcj : cs.getD j [] ≠ []) (m : List Nat) (hjm : j ∉ m) :
    process_bluetooth_data (stOf pid cs m) (frameFor pid n cs j) =
      if m.length + 1 = n then
        (⟨[], {pid}⟩, [reassembleStored (innerOf cs (m ++ [j])) n])
      else (stOf pid cs (m ++ [j]), []) := by
  have hmark : ¬ ((pid :: j :: n :: cs.getD j []).take 4 = handshakeMarker) := hmk
  have hlen : ¬ ((pid :: j :: n :: cs.getD j []).length < 4) := by
    have h1 := List.length_pos.mpr hcj
    simp only [List.length_cons]
    omega
  have hn1 : ¬ (n = 1) := by omega
  have hlook : (((stOf pid cs m).rx_fragments).lookup pid).getD [] = innerOf cs m := by
    cases m with
    | nil => rfl
    | cons a t => simp [stOf, List.lookup_cons, innerOf]
  have hinner : dictInsert (innerOf cs m) j (cs.getD j []) = innerOf cs (m ++ [j]) := by
    rw [dictInsert_of_lookup_none _ _ _ (lookup_innerOf_of_not_mem cs m j hjm),
      innerOf_append_single]
  have hilen : (innerOf cs (m ++ [j])).length = m.length + 1 := by
    rw [innerOf_length, List.length_append, List.length_singleton]
  have hins : dictInsert (stOf pid cs m).rx_fragments pid (innerOf cs (m ++ [j]))
      = [(pid, innerOf cs (m ++ [j]))] := by
    cases m with
    | nil => simp [stOf, dictInsert]
    | cons a t => simp [stOf, dictInsert, List.lookup_cons]
  rw [show frameFor pid n cs j = pid :: j :: n :: cs.getD j [] from rfl]
  unfold process_bluetooth_data
  rw [if_neg hmark, if_neg hlen]
  simp only [List.getD_cons_zero, List.getD_cons_succ, List.drop_succ_cons,
    List.drop_zero]
  rw [show (stOf pid cs m).last_packet_ids = ∅ from rfl]
  rw [if_neg (Finset.not_mem_empty pid), if_neg hn1]
  rw [hlook, hinner, hilen, hins, recordPacketId_empty]
  by_cases hc : m.length + 1 = n
  · rw [if_pos hc, if_pos hc]
    simp [dictErase]
  · rw [if_neg hc, if_neg hc]
    have hne : ¬ (m ++ [j] = []) := by simp
    simp [stOf, hne]



theorem run_nil (s : BTState) : run s [] = (s, []) := rfl

theorem run_cons (s : BTState) (d : Bytes) (ds : List Bytes) :
    run s (d :: ds) =
      ((run (process_bluetooth_data s d).1 ds).1,
       (process_bluetooth_data s d).2 ++ (run (process_bluetooth_data s d).1 ds).2) := rfl

theorem reassembleStored_complete (cs : List Bytes) (k : List Nat)
    (hnd : k.Nodup) (hb : ∀ i ∈ k, i < cs.length) (hlen : k.length = cs.length) :
    reassembleStored (innerOf cs k) cs.length = cs.flatten := by
  unfold reassembleStored
  have hcong : ∀ i ∈ List.range cs.length,
      ((innerOf cs k).lookup i).getD [] = cs.getD i [] := by
    intro i hi
    rw [lookup_innerOf_of_mem cs k i
      (mem_of_nodup_bound_length k cs.length hnd hb hlen i (List.mem_range.mp hi))]
    rfl
  rw [List.map_congr_left hcong, map_getD_range]

theorem feed_chain (pid n : Nat) (cs : List Bytes) (hn : n = cs.length)
    (h2 : 2 ≤ n)
    (hok : ∀ j, j < n → ¬ ((frameFor pid n cs j).take 4 = handshakeMarker))
    (hcs : ∀ c ∈ cs, c ≠ []) :
    ∀ (l m : List Nat), (m ++ l).Nodup → (∀ i ∈ m ++ l, i < n) →
      m.length + l.length ≤ n →
      run (stOf pid cs m) (l.map (frameFor pid n cs)) =
        if m.length + l.length = n ∧ l ≠ [] then
          ((⟨[], {pid}⟩ : BTState), [cs.flatten])
        else (stOf pid cs (m ++ l), []) := by
  intro l
  induction l with
  | nil =>
    intro m hnd hbound hle
    simp [run]
  | cons j l ih =>
    intro m hnd hbound hle
    have hjm : j ∉ m := by
      rw [List.nodup_append] at hnd
      exact fun hm => hnd.2.2 hm (List.mem_cons_self j l)
    have hjn : j < n := hbound j (List.mem_append_right m (List.mem_cons_self j l))
    have hcj : cs.getD j [] ≠ [] := hcs _ (getD_mem cs [] j (hn ▸ hjn))
    have hnd2 : (m ++ j :: l).Nodup := hnd
    rw [List.map_cons, run_cons, step_frame pid n cs h2 j (hok j hjn) hcj m hjm]
    by_cases hc : m.length + 1 = n
    · have hl : l = [] := by
        have hle2 : m.length + (j :: l).length ≤ n := hle
        simp only [List.length_cons] at hle2
        exact List.length_eq_zero.mp (by omega)
      subst hl
      rw [if_pos hc]
      have hk : reassembleStored (innerOf cs (m ++ [j])) n = cs.flatten := by
        subst hn
        exact reassembleStored_complete cs (m ++ [j]) hnd (fun i hi => hbound i hi)
          (by simp only [List.length_append, List.length_singleton]; omega)
      rw [hk]
      have hcond : m.length + ([j] : List Nat).length = n ∧ ([j] : List Nat) ≠ [] := by
        simp only [List.length_singleton]
        exact ⟨hc, by simp⟩
      rw [if_pos hcond]
      simp [run_nil]
    · rw [if_neg hc]
      have hassoc : (m ++ [j]) ++ l = m ++ j :: l := by
        rw [List.append_assoc]
        rfl
      have hnd3 : ((m ++ [j]) ++ l).Nodup := by rw [hassoc]; exact hnd
      have hbound3 : ∀ i ∈ (m ++ [j]) ++ l, i < n := by rw [hassoc]; exact hbound
      have hle3 : (m ++ [j]).length + l.length ≤ n := by
        have hle2 : m.length + (j :: l).length ≤ n := hle
        simp only [List.length_cons] at hle2
        simp only [List.length_append, List.length_singleton]
        omega
      rw [ih (m ++ [j]) hnd3 hbound3 hle3]
      by_cases hcc : (m ++ [j]).length + l.length = n ∧ l ≠ []
      · rw [if_pos hcc]
        have hcond : m.length + (j :: l).length = n ∧ (j :: l) ≠ [] := by
          obtain ⟨h1, _⟩ := hcc
          simp only [List.length_append, List.length_singleton] at h1
          simp only [List.length_cons]
          exact ⟨by omega, by simp⟩
        rw [if_pos hcond]
        simp
      · rw [if_neg hcc]
        have hcond : ¬ (m.length + (j :: l).length = n ∧ (j :: l) ≠ []) := by
          intro hcon
          apply hcc
          obtain ⟨h1, _⟩ := hcon
          simp only [List.length_cons] at h1
          constructor
          · simp only [List.length_append, List.length_singleton]
            omega
          · intro hlnil
            subst hlnil
            simp only [List.length_cons, List.length_nil] at h1
            omega
        rw [if_neg hcond]
        rw [hassoc]
        simp

theorem step_marker (s : BTState) (data : Bytes)
    (h : data.take 4 = handshakeMarker) :
    process_bluetooth_data s data = (s, []) := by
  unfold process_bluetooth_data
  rw [if_pos h]

theorem step_short (s : BTState) (data : Bytes) (h : data.length < 4) :
    process_bluetooth_data s data = (s, []) := by
  by_cases hm : data.take 4 = handshakeMarker
  · exact step_marker s data hm
  · unfold process_bluetooth_data
    rw [if_neg hm, if_pos h]

theorem length_le_of_nodup_bound_avoid (k : List Nat) (n D : Nat) (hnd : k.Nodup)
    (hb : ∀ i ∈ k, i < n) (hD : D < n) (hDk : D ∉ k) : k.length + 1 ≤ n := by
  have hsub : k.toFinset ⊆ (Finset.range n).erase D := by
    intro x hx
    rw [Finset.mem_erase, Finset.mem_range]
    exact ⟨fun he => hDk (he ▸ List.mem_toFinset.mp hx), hb x (List.mem_toFinset.mp hx)⟩
  have hcard := Finset.card_le_card hsub
  rw [List.toFinset_card_of_nodup hnd,
    Finset.card_erase_of_mem (Finset.mem_range.mpr hD), Finset.card_range] at hcard
  omega

theorem feed_chain_dropped (pid n : Nat) (cs : List Bytes) (hn : n = cs.length)
    (h2 : 2 ≤ n) (hcs : ∀ c ∈ cs, c ≠ []) (D : Nat) (hD : D < n)
    (hdrop : (frameFor pid n cs D).take 4 = handshakeMarker)
    (hok : ∀ j, j < n → j ≠ D → ¬ ((frameFor pid n cs j).take 4 = handshakeMarker)) :
    ∀ (l m : List Nat), (m ++ l).Nodup → (∀ i ∈ m ++ l, i < n) → D ∉ m →
      run (stOf pid cs m) (l.map (frameFor pid n cs)) =
        (stOf pid cs (m ++ l.filter (fun i => i ≠ D)), []) := by
  intro l
  induction l with
  | nil =>
    intro m _ _ _
    simp [run]
  | cons j l ih =>
    intro m hnd hbound hDm
    have hjm : j ∉ m := by
      rw [List.nodup_append] at hnd
      exact fun hm => hnd.2.2 hm (List.mem_cons_self j l)
    have hjn : j < n := hbound j (List.mem_append_right m (List.mem_cons_self j l))
    have hnd' : (m ++ l).Nodup := by
      rw [List.nodup_append] at hnd ⊢
      exact ⟨hnd.1, (List.nodup_cons.mp hnd.2.1).2,
        fun x hx hx2 => hnd.2.2 hx (List.mem_cons_of_mem j hx2)⟩
    have hbound' : ∀ i ∈ m ++ l, i < n := by
      intro i hi
      rcases List.mem_append.mp hi with h | h
      · exact hbound i (List.mem_append_left _ h)
      · exact hbound i (List.mem_append_right _ (List.mem_cons_of_mem j h))
    rw [List.map_cons, run_cons]
    by_cases hjD : j = D
    · subst hjD
      rw [step_marker _ _ hdrop, ih m hnd' hbound' hDm]
      have hfil : (j :: l).filter (fun i => i ≠ j) = l.filter (fun i => i ≠ j) := by
        simp [List.filter_cons]
      rw [hfil]
      simp
    · have hcj : cs.getD j [] ≠ [] := hcs _ (getD_mem cs [] j (hn ▸ hjn))
      rw [step_frame pid n cs h2 j (hok j hjn hjD) hcj m hjm]
      have hbnd : (m ++ [j]).length + 1 ≤ n := by
        refine length_le_of_nodup_bound_avoid (m ++ [j]) n D ?_ ?_ hD ?_
        · rw [List.nodup_append] at hnd ⊢
          refine ⟨hnd.1, List.nodup_singleton j, ?_⟩
          intro x hx hx2
          rw [List.mem_singleton] at hx2
          exact hnd.2.2 hx (hx2 ▸ List.mem_cons_self j l)
        · intro i hi
          rcases List.mem_append.mp hi with h | h
          · exact hbound i (List.mem_append_left _ h)
          · rw [List.mem_singleton] at h
            exact h ▸ hjn
        · intro hmem
          rcases List.mem_append.mp hmem with h | h
          · exact hDm h
          · rw [List.mem_singleton] at h
            exact hjD h.symm
      have hnc : ¬ (m.length + 1 = n) := by
        simp only [List.length_append, List.length_singleton] at hbnd
        omega
      rw [if_neg hnc]
      have hnd3 : ((m ++ [j]) ++ l).Nodup := by
        rw [List.append_assoc]
        exact hnd
      have hbound3 : ∀ i ∈ (m ++ [j]) ++ l, i < n := by
        rw [List.append_assoc]
        exact hbound
      have hDm3 : D ∉ m ++ [j] := by
        intro hmem
        rcases List.mem_append.mp hmem with h | h
        · exact hDm h
        · rw [List.mem_singleton] at h
          exact hjD h.symm
      rw [ih (m ++ [j]) hnd3 hbound3 hDm3]
      have hfil : (j :: l).filter (fun i => i ≠ D) = j :: l.filter (fun i => i ≠ D) := by
        simp [List.filter_cons, hjD]
      rw [hfil, List.append_assoc]
      simp

theorem step_single (s : BTState) (pid : Nat) (d : Bytes) (hd : d ≠ [])
    (hnew : pid ∉ s.last_packet_ids) :
    process_bluetooth_data s ([pid, 0, 1] ++ d) =
      ({ s with last_packet_ids := recordPacketId s.last_packet_ids pid }, [d]) := by
  have hmark : ¬ ((pid :: 0 :: 1 :: d).take 4 = handshakeMarker) := by
    simp [handshakeMarker, List.take_succ_cons]
  have hlen : ¬ ((pid :: 0 :: 1 :: d).length < 4) := by
    have h1 := List.length_pos.mpr hd
    simp only [List.length_cons]
    omega
  rw [show ([pid, 0, 1] ++ d : Bytes) = pid :: 0 :: 1 :: d from rfl]
  unfold process_bluetooth_data
  rw [if_neg hmark, if_neg hlen]
  simp only [List.getD_cons_zero, List.getD_cons_succ, List.drop_succ_cons,
    List.drop_zero]
  rw [if_neg hnew]
  simp

theorem step_dup (s : BTState) (a b c : Nat) (rest0 : Bytes)
    (hmark : ¬ ((a :: b :: c :: rest0).take 4 = handshakeMarker))
    (hrest : rest0 ≠ []) (hdup : a ∈ s.last_packet_ids) :
    process_bluetooth_data s (a :: b :: c :: rest0) = (s, []) := by
  have hlen : ¬ ((a :: b :: c :: rest0).length < 4) := by
    have h1 := List.length_pos.mpr hrest
    simp only [List.length_cons]
    omega
  unfold process_bluetooth_data
  rw [if_neg hmark, if_neg hlen]
  simp only [List.getD_cons_zero, List.getD_cons_succ, List.drop_succ_cons,
    List.drop_zero]
  rw [if_pos hdup]

theorem step_single_dup (s : BTState) (pid : Nat) (d : Bytes) (hd : d ≠ [])
    (hdup : pid ∈ s.last_packet_ids) :
    process_bluetooth_data s ([pid, 0, 1] ++ d) = (s, []) := by
  have hmark : ¬ (([pid, 0, 1] ++ d : Bytes).take 4 = handshakeMarker) := by
    simp [handshakeMarker, List.take_succ_cons]
  exact step_dup s pid 0 1 d hmark hd hdup

theorem step_multi (s : BTState) (pid num tot : Nat) (rest : Bytes)
    (hmark : ¬ ((pid :: num :: tot :: rest).take 4 = handshakeMarker))
    (hrest : rest ≠ []) (hnew : pid ∉ s.last_packet_ids) (h2 : 2 ≤ tot) :
    process_bluetooth_data s (pid :: num :: tot :: rest) =
      (if (dictInsert ((s.rx_fragments.lookup pid).getD []) num rest).length = tot then
        (⟨dictErase (dictInsert s.rx_fragments pid
            (dictInsert ((s.rx_fragments.lookup pid).getD []) num rest)) pid,
          recordPacketId s.last_packet_ids pid⟩,
         [reassembleStored (dictInsert ((s.rx_fragments.lookup pid).getD []) num rest) tot])
      else
        (⟨dictInsert s.rx_fragments pid
            (dictInsert ((s.rx_fragments.lookup pid).getD []) num rest),
          s.last_packet_ids⟩, [])) := by
  have hlen : ¬ ((pid :: num :: tot :: rest).length < 4) := by
    have h1 := List.length_pos.mpr hrest
    simp only [List.length_cons]
    omega
  have htot : ¬ (tot = 1) := by omega
  unfold process_bluetooth_data
  rw [if_neg hmark, if_neg hlen]
  simp only [List.getD_cons_zero, List.getD_cons_succ, List.drop_succ_cons,
    List.drop_zero]
  rw [if_neg hnew, if_neg htot]

theorem lookup_isSome_of_mem_keys {β : Type} (m : List (Nat × β)) (k : Nat)
    (h : k ∈ m.map Prod.fst) : (m.lookup k).isSome := by
  induction m with
  | nil => cases h
  | cons p m ih =>
    by_cases hk : k = p.1
    · subst hk
      obtain ⟨a, b⟩ := p
      simp [List.lookup_cons]
    · have hmem : k ∈ m.map Prod.fst := by
        rcases List.mem_cons.mp h with h1 | h1
        · exact absurd h1 hk
        · exact h1
      have hb : (k == p.1) = false := beq_eq_false_iff_ne.mpr hk
      obtain ⟨a, b⟩ := p
      simp only [List.lookup_cons] at *
      simp only [hb]
      exact ih hmem

theorem step_eval (s : BTState) (a b c : Nat) (rest : Bytes)
    (hmark : ¬ ((a :: b :: c :: rest).take 4 = handshakeMarker)) (hrest : rest ≠ []) :
    process_bluetooth_data s (a :: b :: c :: rest) =
      if a ∈ s.last_packet_ids then (s, [])
      else if c = 1 then
        (⟨s.rx_fragments, recordPacketId s.last_packet_ids a⟩, [rest])
      else if (dictInsert ((s.rx_fragments.lookup a).getD []) b rest).length = c then
        (⟨dictErase (dictInsert s.rx_fragments a
            (dictInsert ((s.rx_fragments.lookup a).getD []) b rest)) a,
          recordPacketId s.last_packet_ids a⟩,
         [reassembleStored (dictInsert ((s.rx_fragments.lookup a).getD []) b rest) c])
      else
        (⟨dictInsert s.rx_fragments a
            (dictInsert ((s.rx_fragments.lookup a).getD []) b rest),
          s.last_packet_ids⟩, []) := by
  have hlen : ¬ ((a :: b :: c :: rest).length < 4) := by
    have h1 := List.length_pos.mpr hrest
    simp only [List.length_cons]
    omega
  unfold process_bluetooth_data
  rw [if_neg hmark, if_neg hlen]
  simp only [List.getD_cons_zero, List.getD_cons_succ, List.drop_succ_cons,
    List.drop_zero]

theorem mem_of_lookup_eq_some {β : Type} (m : List (Nat × β)) (k : Nat) (v : β)
    (h : m.lookup k = some v) : (k, v) ∈ m := by
  induction m with
  | nil => cases h
  | cons p m ih =>
    obtain ⟨a, b⟩ := p
    by_cases hk : k = a
    · subst hk
      simp only [List.lookup_cons, beq_self_eq_true] at h
      have hbv := Option.some.inj h
      subst hbv
      exact List.mem_cons_self _ _
    · have hb : (k == a) = false := beq_eq_false_iff_ne.mpr hk
      simp only [List.lookup_cons, hb] at h
      exact List.mem_cons_of_mem _ (ih h)

theorem mkFrames_mem_length (pid : Nat) (cs : List Bytes) (bound : Nat)
    (hcs : ∀ c ∈ cs, c.length ≤ bound) :
    ∀ f ∈ mkFrames pid cs, f.length ≤ 3 + bound := by
  intro f hf
  obtain ⟨i, hi, rfl⟩ := List.mem_map.mp hf
  have hc := hcs _ (getD_mem cs [] i (List.mem_range.mp hi))
  simp only [frameFor, List.cons_append, List.nil_append, List.length_cons]
  omega

/-! ### Claims -/

/-- C6: `process_outgoing` while `online == false` leaves the transmit queue
unchanged (the payload is silently dropped; the embedded function is total, so
no exception can be raised), and while `online == true` it appends the payload
to the tail of the queue. -/
theorem C6_offline_rejection (tx_queue : List Bytes) (data : Bytes) :
    process_outgoing false tx_queue data = tx_queue ∧
    process_outgoing true tx_queue data = tx_queue ++ [data] :=
  ⟨rfl, rfl⟩

/-- C8: in point-to-point mode the retry interval after any number of
consecutive failed connect attempts is the configured `connection_interval`
plus the fixed 2-second backoff — it never grows with the failure count.
(The point-to-point supervisor is modelled from the spec; see
`p2pRetryInterval`.) -/
theorem C8_p2p_retry_constant (connection_interval k j : Nat) :
    p2pRetryInterval connection_interval k = connection_interval + 2 ∧
    p2pRetryInterval connection_interval k = p2pRetryInterval connection_interval j :=
  ⟨rfl, rfl⟩

/-- C9: any inbound data whose first four bytes are `b"RNS:"` (82, 78, 83, 58)
is discarded by `process_bluetooth_data` before frame parsing: the state is
unchanged and nothing is delivered to `process_incoming`, even though such
data would otherwise parse as packet_id 0x52, fragment_index 0x4E,
fragment_count 0x53. -/
theorem C9_handshake_drop (s : BTState) (data : Bytes)
    (h : data.take 4 = handshakeMarker) :
    process_bluetooth_data s data = (s, []) :=
  step_marker s data h

/-- C9 witness: a concrete marker-bearing input that would otherwise be a
well-formed frame is dropped from the initial state. -/
theorem C9_handshake_drop_witness :
    ([82, 78, 83, 58, 1, 2] : Bytes).take 4 = handshakeMarker ∧
    process_bluetooth_data initState [82, 78, 83, 58, 1, 2] = (initState, []) :=
  ⟨by decide, C9_handshake_drop initState [82, 78, 83, 58, 1, 2] (by decide)⟩

/-- C5 counterexample: the claim computes the exposed MTU as the radio payload
size minus the 3-byte frame header (27 - 3 = 24); the source instead reserves
four bytes, so `HW_MTU = 23` and differs from
`BLE_MAX_PAYLOAD - frameHeaderSize`. -/
theorem C5_mtu_counterexample :
    HW_MTU = 23 ∧ BLE_MAX_PAYLOAD - frameHeaderSize = 24 ∧
    HW_MTU ≠ BLE_MAX_PAYLOAD - frameHeaderSize := by
  decide

/-- C5 amended: the negotiated `HW_MTU` is the radio payload size minus
**four** reserve bytes (one more than the 3-byte frame header), i.e. 23; every
frame written for a fragment of a `fragment_packet` run therefore has length
at most `frameHeaderSize + HW_MTU = 26`, one byte below the 27-byte radio
payload bound. -/
theorem C5_mtu_amended :
    HW_MTU = BLE_MAX_PAYLOAD - 4 ∧ HW_MTU = 23 ∧
    frameHeaderSize + HW_MTU + 1 = BLE_MAX_PAYLOAD ∧
    ∀ (pid : Nat) (d : Bytes), ∀ f ∈ mkFrames pid (fragment_packet HW_MTU d),
      f.length ≤ frameHeaderSize + HW_MTU := by
  refine ⟨rfl, rfl, rfl, ?_⟩
  intro pid d f hf
  exact mkFrames_mem_length pid (fragment_packet HW_MTU d) HW_MTU
    (fun c hc => fragment_packet_mem_length_le HW_MTU d c hc) f hf

/-- C5 witness: the first frame of a 30-byte payload fragmented at `HW_MTU`
obeys the frame-length bound. -/
theorem C5_mtu_amended_witness :
    ((mkFrames 9 (fragment_packet HW_MTU (List.replicate 30 7))).getD 0 []).length
      ≤ frameHeaderSize + HW_MTU :=
  C5_mtu_amended.2.2.2 9 (List.replicate 30 7) _ (by decide)

/-- C7: in a connection cycle with a writable characteristic and a non-empty
transmit queue, exactly the head payload of the FIFO queue is dequeued, and
the written frames carry strictly ascending fragment-index bytes with frame
`i` holding the header `[packet_id, i, fragment_count]` followed by the `i`-th
consecutive chunk of that payload. -/
theorem C7_drain_write_order (mtu pid : Nat) (d : Bytes) (rest : List Bytes) :
    (attempt_connection_write mtu pid (d :: rest)).1 = rest ∧
    ((attempt_connection_write mtu pid (d :: rest)).2).map (fun f => f.take 3) =
      (List.range (fragment_packet mtu d).length).map
        (fun i => [pid, i, (fragment_packet mtu d).length]) ∧
    ((attempt_connection_write mtu pid (d :: rest)).2).map (fun f => f.drop 3) =
      fragment_packet mtu d ∧
    List.Chain' (fun x y => x < y)
      (((attempt_connection_write mtu pid (d :: rest)).2).map (fun f => f.getD 1 0)) := by
  refine ⟨rfl, ?_, ?_, ?_⟩
  · show (mkFrames pid (fragment_packet mtu d)).map (fun f => f.take 3) = _
    unfold mkFrames
    rw [List.map_map]
    apply List.map_congr_left
    intro i hi
    simp [frameFor, List.take_succ_cons]
  · show (mkFrames pid (fragment_packet mtu d)).map (fun f => f.drop 3) =
      fragment_packet mtu d
    unfold mkFrames
    rw [List.map_map]
    have hcg : ∀ i ∈ List.range (fragment_packet mtu d).length,
        ((fun f => f.drop 3) ∘ frameFor pid (fragment_packet mtu d).length
          (fragment_packet mtu d)) i = (fragment_packet mtu d).getD i [] := by
      intro i hi
      simp [frameFor]
    rw [List.map_congr_left hcg, map_getD_range]
  · show List.Chain' (fun x y => x < y)
      ((mkFrames pid (fragment_packet mtu d)).map (fun f => f.getD 1 0))
    unfold mkFrames
    rw [List.map_map]
    have hcg : ∀ i ∈ List.range (fragment_packet mtu d).length,
        ((fun f => f.getD 1 0) ∘ frameFor pid (fragment_packet mtu d).length
          (fragment_packet mtu d)) i = i := by
      intro i hi
      simp [frameFor]
    rw [List.map_congr_left hcg]
    simpa using (List.pairwise_lt_range (fragment_packet mtu d).length).chain'

/-- C10: `process_bluetooth_data` silently discards every inbound frame
shorter than 4 bytes — including a 3-byte frame that is a valid header with a
zero-length fragment payload — leaving the state unchanged and delivering
nothing.  Consequently a zero-length fragment never enters the receive path:
fragment stores keep every stored fragment non-empty, and a single-fragment
delivery is always a non-empty payload. -/
theorem C10_min_frame_length :
    (∀ (s : BTState) (data : Bytes), data.length < 4 →
      process_bluetooth_data s data = (s, []))
    ∧ (∀ (s : BTState) (data : Bytes),
        (∀ e ∈ s.rx_fragments, ∀ kv ∈ e.2, kv.2 ≠ ([] : Bytes)) →
        ∀ e ∈ (process_bluetooth_data s data).1.rx_fragments, ∀ kv ∈ e.2,
          kv.2 ≠ ([] : Bytes))
    ∧ (∀ (s : BTState) (data p : Bytes),
        (process_bluetooth_data s data).2 = [p] → data.getD 2 0 = 1 → p ≠ []) := by
  have hshape : ∀ (data : Bytes), ¬ data.length < 4 →
      ∃ a b c rest, data = a :: b :: c :: rest ∧ rest ≠ ([] : Bytes) := by
    intro data hlen
    match data with
    | [] => simp at hlen
    | [a] => simp at hlen
    | [a, b] => simp at hlen
    | [a, b, c] => simp at hlen
    | a :: b :: c :: d0 :: rest => exact ⟨a, b, c, d0 :: rest, rfl, by simp⟩
  refine ⟨fun s data h => step_short s data h, ?_, ?_⟩
  · intro s data hinv
    by_cases hm : data.take 4 = handshakeMarker
    · rw [step_marker s data hm]
      exact hinv
    · by_cases hlen : data.length < 4
      · rw [step_short s data hlen]
        exact hinv
      · obtain ⟨a, b, c, rest, rfl, hrest⟩ := hshape data hlen
        rw [step_eval s a b c rest hm hrest]
        have hinner : ∀ kv ∈ dictInsert ((s.rx_fragments.lookup a).getD []) b rest,
            kv.2 ≠ ([] : Bytes) := by
          intro kv hkv
          rcases dictInsert_mem _ _ _ kv hkv with hold | hnewkv
          · rcases hval : s.rx_fragments.lookup a with _ | inner0
            · rw [hval] at hold
              cases hold
            · rw [hval] at hold
              exact hinv (a, inner0) (mem_of_lookup_eq_some _ _ _ hval) kv hold
          · rw [hnewkv]
            exact hrest
        split_ifs with h1 h2 h3
        · exact hinv
        · exact hinv
        · intro e he kv hkv
          have he2 : e ∈ dictInsert s.rx_fragments a
              (dictInsert ((s.rx_fragments.lookup a).getD []) b rest) :=
            List.mem_of_mem_filter he
          rcases dictInsert_mem _ _ _ e he2 with hold | hnewe
          · exact hinv e hold kv hkv
          · rw [hnewe] at hkv
            exact hinner kv hkv
        · intro e he kv hkv
          rcases dictInsert_mem _ _ _ e he with hold | hnewe
          · exact hinv e hold kv hkv
          · rw [hnewe] at hkv
            exact hinner kv hkv
  · intro s data p hdel hone
    by_cases hm : data.take 4 = handshakeMarker
    · rw [step_marker s data hm] at hdel
      cases hdel
    · by_cases hlen : data.length < 4
      · rw [step_short s data hlen] at hdel
        cases hdel
      · obtain ⟨a, b, c, rest, rfl, hrest⟩ := hshape data hlen
        have hc1 : c = 1 := by
          simpa using hone
        subst hc1
        rw [step_eval s a b 1 rest hm hrest] at hdel
        split_ifs at hdel
        all_goals simp_all

/-- C10 witness: a 3-byte frame with a valid header and zero-length fragment
payload is discarded from the initial state. -/
theorem C10_min_frame_length_witness :
    process_bluetooth_data initState [5, 0, 1] = (initState, []) :=
  C10_min_frame_length.1 initState [5, 0, 1] (by decide)

set_option maxRecDepth 8000 in
/-- C1 counterexample: a zero-length payload produces an **empty** fragment
list — not one zero-length fragment — so feeding its (zero) frames delivers
nothing rather than the empty payload.  Additionally, with packet id 82
(`R`), fragment index 78 (`N`) and fragment count 83 (`S`) a frame whose
fragment starts with byte 58 (`:`) is exactly the handshake marker and is
dropped, so in-order feeding of all frames of such a payload also delivers
nothing. -/
theorem C1_roundtrip_counterexample :
    fragment_packet 5 [] = [] ∧
    (run initState (mkFrames 7 (fragment_packet 5 []))).2 = [] ∧
    (run initState (mkFrames 82 (fragment_packet 1
      ((List.range 83).map (fun i => if i = 78 then 58 else 1))))).2 = [] := by
  decide

/-- C1 amended: for every `mtu ≥ 1` and every **non-empty** payload whose
fragment count fits the one-byte header field (at most 255), with a packet id
below 256 and different from 82 (so that no frame can collide with the
`b"RNS:"` handshake marker), feeding the frames of `fragment_packet` into
`process_bluetooth_data` in original index order from the initial state
delivers exactly the original payload.  (A zero-length payload fragments into
an empty fragment list and delivers nothing; see the counterexample.) -/
theorem C1_roundtrip_inorder (mtu : Nat) (payload : Bytes) (pid : Nat)
    (hm : 1 ≤ mtu) (hp : payload ≠ []) (hpid : pid < 256) (h82 : pid ≠ 82)
    (hfit : (fragment_packet mtu payload).length ≤ 255) :
    (run initState (mkFrames pid (fragment_packet mtu payload))).2 = [payload] := by
  have hflat : (fragment_packet mtu payload).flatten = payload :=
    fragment_packet_flatten mtu hm payload
  have hcs0 : fragment_packet mtu payload ≠ [] := by
    intro h
    apply hp
    rw [← hflat, h]
    rfl
  have hlen1 : 0 < (fragment_packet mtu payload).length := List.length_pos.mpr hcs0
  rcases Nat.lt_or_ge (fragment_packet mtu payload).length 2 with h1 | h2
  · have hn : (fragment_packet mtu payload).length = 1 := by omega
    obtain ⟨c, hc⟩ := List.length_eq_one.mp hn
    have hcp : c = payload := by
      rw [← hflat, hc]
      simp
    rw [hc]
    rw [show mkFrames pid [c] = [[pid, 0, 1] ++ c] from by
      simp [mkFrames, frameFor, show List.range 1 = [0] from rfl]]
    rw [run_cons, run_nil,
      step_single initState pid c (by rw [hcp]; exact hp) (Finset.not_mem_empty pid)]
    simp [hcp]
  · rw [show (initState : BTState) = stOf pid (fragment_packet mtu payload) [] from rfl]
    rw [show mkFrames pid (fragment_packet mtu payload) =
        (List.range (fragment_packet mtu payload).length).map
          (frameFor pid (fragment_packet mtu payload).length
            (fragment_packet mtu payload)) from rfl]
    rw [feed_chain pid (fragment_packet mtu payload).length (fragment_packet mtu payload)
      rfl h2 (fun j _ => frameFor_not_marker_of_pid_ne pid _ _ h82 j)
      (fun c hc => fragment_packet_mem_ne_nil mtu hm payload c hc)
      (List.range (fragment_packet mtu payload).length) []
      (by simpa using List.nodup_range (fragment_packet mtu payload).length)
      (by intro i hi; rw [List.nil_append] at hi; exact List.mem_range.mp hi)
      (by simp)]
    rw [if_pos ⟨by simp, by rw [Ne, List.range_eq_nil]; omega⟩]
    simp [hflat]

/-- C1 witness: the two frames of a 3-byte payload at mtu 2, fed in order,
deliver the payload. -/
theorem C1_roundtrip_inorder_witness :
    (run initState (mkFrames 9 (fragment_packet 2 [5, 6, 7]))).2 = [[5, 6, 7]] :=
  C1_roundtrip_inorder 2 [5, 6, 7] 9 (by decide) (by decide) (by decide) (by decide)
    (by decide)

/-- C3: for a payload with more than one fragment and any packet id below 256,
feeding its frames in any permutation of the indices delivers nothing before
the last frame arrives, and the result of feeding the whole permutation is
identical to the in-order result; once all indices are present — that is,
when no frame collides with the `b"RNS:"` handshake marker, since a dropped
frame is the only way an index can fail to be stored — the delivery is
exactly the original payload.  (At most the index-78 frame of a packet id 82
with fragment count 83 can collide; then the count never reaches the declared
total and both orders deliver nothing, so order independence still holds.) -/
theorem C3_order_independence (mtu : Nat) (payload : Bytes) (pid : Nat)
    (l : List Nat) (hm : 1 ≤ mtu) (hpid : pid < 256)
    (hcount : 1 < (fragment_packet mtu payload).length)
    (hfit : (fragment_packet mtu payload).length ≤ 255)
    (hperm : l.Perm (List.range (fragment_packet mtu payload).length)) :
    (∀ l1 l2, l = l1 ++ l2 → l2 ≠ [] →
      (run initState (l1.map (frameFor pid (fragment_packet mtu payload).length
        (fragment_packet mtu payload)))).2 = [])
    ∧ (run initState (l.map (frameFor pid (fragment_packet mtu payload).length
        (fragment_packet mtu payload)))).2 =
      (run initState ((List.range (fragment_packet mtu payload).length).map
        (frameFor pid (fragment_packet mtu payload).length
          (fragment_packet mtu payload)))).2
    ∧ ((∀ i ∈ l, ¬ ((frameFor pid (fragment_packet mtu payload).length
          (fragment_packet mtu payload) i).take 4 = handshakeMarker)) →
        (run initState (l.map (frameFor pid (fragment_packet mtu payload).length
          (fragment_packet mtu payload)))).2 = [payload]) := by
  have hnd : l.Nodup := hperm.nodup_iff.mpr (List.nodup_range _)
  have hmem : ∀ i ∈ l, i < (fragment_packet mtu payload).length := by
    intro i hi
    exact List.mem_range.mp (hperm.mem_iff.mp hi)
  have hlen : l.length = (fragment_packet mtu payload).length := by
    simpa using hperm.length_eq
  have hne : ∀ c ∈ fragment_packet mtu payload, c ≠ [] :=
    fun c hc => fragment_packet_mem_ne_nil mtu hm payload c hc
  have hflat : (fragment_packet mtu payload).flatten = payload :=
    fragment_packet_flatten mtu hm payload
  by_cases hall : ∀ j, j < (fragment_packet mtu payload).length →
      ¬ ((frameFor pid (fragment_packet mtu payload).length
        (fragment_packet mtu payload) j).take 4 = handshakeMarker)
  · have hfull : ∀ k : List Nat, k.Nodup →
        (∀ i ∈ k, i < (fragment_packet mtu payload).length) →
        k.length = (fragment_packet mtu payload).length →
        (run initState (k.map (frameFor pid (fragment_packet mtu payload).length
          (fragment_packet mtu payload)))).2 = [payload] := by
      intro k hknd hkmem hklen
      rw [show (initState : BTState) = stOf pid (fragment_packet mtu payload) [] from rfl]
      rw [feed_chain pid (fragment_packet mtu payload).length (fragment_packet mtu payload)
        rfl hcount hall hne k []
        (by simpa using hknd) (by simpa using hkmem) (by simp [hklen])]
      rw [if_pos ⟨by simpa using hklen, by
        intro h
        rw [h] at hklen
        simp at hklen
        omega⟩]
      simp [hflat]
    refine ⟨?_, ?_, fun _ => hfull l hnd hmem hlen⟩
    · intro l1 l2 heq hne2
      have hnd1 : l1.Nodup := by
        rw [heq, List.nodup_append] at hnd
        exact hnd.1
      have hmem1 : ∀ i ∈ l1, i < (fragment_packet mtu payload).length := by
        intro i hi
        exact hmem i (by rw [heq]; exact List.mem_append_left l2 hi)
      have hlt : l1.length < (fragment_packet mtu payload).length := by
        have hsum : l1.length + l2.length = (fragment_packet mtu payload).length := by
          rw [← hlen, heq, List.length_append]
        have h2pos := List.length_pos.mpr hne2
        omega
      rw [show (initState : BTState) = stOf pid (fragment_packet mtu payload) [] from rfl]
      rw [feed_chain pid (fragment_packet mtu payload).length (fragment_packet mtu payload)
        rfl hcount hall hne l1 []
        (by simpa using hnd1) (by simpa using hmem1) (by simp; omega)]
      rw [if_neg (by
        rintro ⟨hcon, -⟩
        simp at hcon
        omega)]
    · rw [hfull l hnd hmem hlen,
        hfull (List.range (fragment_packet mtu payload).length) (List.nodup_range _)
          (fun i hi => List.mem_range.mp hi) (by simp)]
  · push_neg at hall
    obtain ⟨D, hD, hdrop⟩ := hall
    have hok : ∀ j, j < (fragment_packet mtu payload).length → j ≠ D →
        ¬ ((frameFor pid (fragment_packet mtu payload).length
          (fragment_packet mtu payload) j).take 4 = handshakeMarker) := by
      intro j hj hjD hmk
      exact hjD ((frameFor_marker_index pid _ _ j hmk).trans
        (frameFor_marker_index pid _ _ D hdrop).symm)
    have hdropped : ∀ k : List Nat, k.Nodup →
        (∀ i ∈ k, i < (fragment_packet mtu payload).length) →
        (run initState (k.map (frameFor pid (fragment_packet mtu payload).length
          (fragment_packet mtu payload)))).2 = [] := by
      intro k hknd hkmem
      rw [show (initState : BTState) = stOf pid (fragment_packet mtu payload) [] from rfl]
      rw [feed_chain_dropped pid (fragment_packet mtu payload).length
        (fragment_packet mtu payload) rfl hcount hne D hD hdrop hok k []
        (by simpa using hknd) (by simpa using hkmem) (by simp)]
    refine ⟨?_, ?_, ?_⟩
    · intro l1 l2 heq hne2
      have hnd1 : l1.Nodup := by
        rw [heq, List.nodup_append] at hnd
        exact hnd.1
      have hmem1 : ∀ i ∈ l1, i < (fragment_packet mtu payload).length := by
        intro i hi
        exact hmem i (by rw [heq]; exact List.mem_append_left l2 hi)
      exact hdropped l1 hnd1 hmem1
    · rw [hdropped l hnd hmem,
        hdropped (List.range (fragment_packet mtu payload).length) (List.nodup_range _)
          (fun i hi => List.mem_range.mp hi)]
    · intro hallmem
      have hDl : D ∈ l := hperm.mem_iff.mpr (List.mem_range.mpr hD)
      exact absurd hdrop (hallmem D hDl)

/-- C3 witness: the two-fragment payload `[5, 6, 7]` at mtu 2 and packet id
82 (the marker's own first byte, realizable as `hash % 256`), fed in the
reversed order `[1, 0]`: nothing after the first frame, the result equals the
in-order result, and — no frame colliding with the marker here, since the
fragment count is 2, not 83 — the delivery is the original payload. -/
theorem C3_order_independence_witness :
    (run initState ([1].map (frameFor 82 (fragment_packet 2 [5, 6, 7]).length
      (fragment_packet 2 [5, 6, 7])))).2 = [] ∧
    (run initState ([1, 0].map (frameFor 82 (fragment_packet 2 [5, 6, 7]).length
      (fragment_packet 2 [5, 6, 7])))).2 =
      (run initState ((List.range (fragment_packet 2 [5, 6, 7]).length).map
        (frameFor 82 (fragment_packet 2 [5, 6, 7]).length
          (fragment_packet 2 [5, 6, 7])))).2 ∧
    (run initState ([1, 0].map (frameFor 82 (fragment_packet 2 [5, 6, 7]).length
      (fragment_packet 2 [5, 6, 7])))).2 = [[5, 6, 7]] := by
  have h := C3_order_independence 2 [5, 6, 7] 82 [1, 0] (by decide) (by decide)
    (by decide) (by decide) (by decide)
  exact ⟨h.1 [1] [0] (by decide) (by decide), h.2.1, h.2.2 (by decide)⟩

/-- C2 counterexample: two frames for packet id 7 declaring `fragment_count`
2 but carrying the out-of-range fragment indices 5 and 6 trigger a delivery —
even though the stored index set {5, 6} is not {0, 1} — and the delivered
payload is the empty byte string, not the concatenation of the stored
fragments `[9]` and `[8]`. -/
theorem C2_reassembly_counterexample :
    (run initState [[7, 5, 2, 9]]).2 = [] ∧
    (run initState [[7, 5, 2, 9]]).1.rx_fragments = [(7, [(5, [9])])] ∧
    (run initState [[7, 5, 2, 9], [7, 6, 2, 8]]).2 = [[]] := by
  decide

/-- C2 amended: for a well-formed multi-fragment frame (no handshake marker,
fragment bytes present, packet id not deduplicated, declared fragment count at
least 2), a payload is delivered out of the reassembly map exactly when the
**number** of stored fragments for that packet id equals the declared
fragment count — not when the index set equals `{0..fragment_count-1}` — and
the delivered payload is the reassembly concatenation over indices
`0..fragment_count-1` in ascending order, skipping absent indices.  When the
stored indices are distinct and all below the declared count (as holds for
frames produced by `fragment_packet`), the count condition does force the
index set to be exactly `{0..fragment_count-1}` with every index present. -/
theorem C2_reassembly_delivery (s : BTState) (pid num tot : Nat) (rest : Bytes)
    (hmark : ¬ ((pid :: num :: tot :: rest).take 4 = handshakeMarker))
    (hrest : rest ≠ []) (hnew : pid ∉ s.last_packet_ids) (h2 : 2 ≤ tot) :
    ((process_bluetooth_data s (pid :: num :: tot :: rest)).2 ≠ [] ↔
      (dictInsert ((s.rx_fragments.lookup pid).getD []) num rest).length = tot)
    ∧ ((dictInsert ((s.rx_fragments.lookup pid).getD []) num rest).length = tot →
        (process_bluetooth_data s (pid :: num :: tot :: rest)).2 =
          [reassembleStored
            (dictInsert ((s.rx_fragments.lookup pid).getD []) num rest) tot])
    ∧ (((dictInsert ((s.rx_fragments.lookup pid).getD []) num rest).map
          Prod.fst).Nodup →
        (∀ k ∈ (dictInsert ((s.rx_fragments.lookup pid).getD []) num rest).map
          Prod.fst, k < tot) →
        (dictInsert ((s.rx_fragments.lookup pid).getD []) num rest).length = tot →
        ∀ i, i < tot →
          i ∈ (dictInsert ((s.rx_fragments.lookup pid).getD []) num rest).map
            Prod.fst ∧
          ((dictInsert ((s.rx_fragments.lookup pid).getD []) num rest).lookup
            i).isSome) := by
  rw [step_multi s pid num tot rest hmark hrest hnew h2]
  refine ⟨?_, ?_, ?_⟩
  · by_cases hc :
        (dictInsert ((s.rx_fragments.lookup pid).getD []) num rest).length = tot
    · rw [if_pos hc]
      simpa using hc
    · rw [if_neg hc]
      simpa using hc
  · intro hc
    rw [if_pos hc]
  · intro hnd hbound hc i hi
    have hkl : ((dictInsert ((s.rx_fragments.lookup pid).getD []) num rest).map
        Prod.fst).length = tot := by
      rw [List.length_map]
      exact hc
    have hmem := mem_of_nodup_bound_length _ tot hnd hbound hkl i hi
    exact ⟨hmem, lookup_isSome_of_mem_keys _ i hmem⟩

/-- C2 witness: with fragment 0 already stored for packet id 7, the frame
carrying fragment 1 of 2 completes the count and delivers the ascending
concatenation of both stored fragments. -/
theorem C2_reassembly_delivery_witness :
    (process_bluetooth_data (⟨[(7, [(0, [1])])], ∅⟩ : BTState) [7, 1, 2, 9]).2 =
      [[1, 9]] := by
  have h := (C2_reassembly_delivery (⟨[(7, [(0, [1])])], ∅⟩ : BTState) 7 1 2 [9]
    (by decide) (by decide) (by decide) (by decide)).2.1 (by decide)
  rw [h]
  decide

/-- C4: a frame bearing an already-recorded packet id is dropped, so the same
single-fragment packet delivered twice yields exactly one `process_incoming`
call while the window has not overflowed; recording the 101st distinct packet
id clears the entire window (no LRU eviction), after which any
previously-seen packet id is treated as new and delivered again. -/
theorem C4_dedup_window (s : BTState) (pid : Nat) (d : Bytes)
    (hpid : pid < 256) (hd : d ≠ []) (hnew : pid ∉ s.last_packet_ids) :
    ((process_bluetooth_data s ([pid, 0, 1] ++ d)).2 = [d])
    ∧ ((insert pid s.last_packet_ids).card ≤ 100 →
        process_bluetooth_data (process_bluetooth_data s ([pid, 0, 1] ++ d)).1
            ([pid, 0, 1] ++ d) =
          ((process_bluetooth_data s ([pid, 0, 1] ++ d)).1, [])
        ∧ (run s [[pid, 0, 1] ++ d, [pid, 0, 1] ++ d]).2 = [d])
    ∧ (100 < (insert pid s.last_packet_ids).card →
        (process_bluetooth_data s ([pid, 0, 1] ++ d)).1.last_packet_ids = ∅
        ∧ ∀ (q : Nat) (e : Bytes), q < 256 → e ≠ [] →
            (process_bluetooth_data
              (process_bluetooth_data s ([pid, 0, 1] ++ d)).1 ([q, 0, 1] ++ e)).2 =
              [e]) := by
  have hstep := step_single s pid d hd hnew
  refine ⟨by rw [hstep], ?_, ?_⟩
  · intro hcard
    have hrec : recordPacketId s.last_packet_ids pid = insert pid s.last_packet_ids := by
      unfold recordPacketId
      rw [if_neg (by omega)]
    have hdup : pid ∈ (process_bluetooth_data s ([pid, 0, 1] ++ d)).1.last_packet_ids := by
      rw [hstep]
      show pid ∈ recordPacketId s.last_packet_ids pid
      rw [hrec]
      exact Finset.mem_insert_self pid _
    refine ⟨step_single_dup _ pid d hd hdup, ?_⟩
    rw [run_cons, run_cons, run_nil, step_single_dup _ pid d hd hdup, hstep]
    simp
  · intro hcard
    have hrec : recordPacketId s.last_packet_ids pid = ∅ := by
      unfold recordPacketId
      rw [if_pos hcard]
    have hids : (process_bluetooth_data s ([pid, 0, 1] ++ d)).1.last_packet_ids = ∅ := by
      rw [hstep]
      exact hrec
    refine ⟨hids, ?_⟩
    intro q e hq he
    have hq0 : q ∉ (process_bluetooth_data s ([pid, 0, 1] ++ d)).1.last_packet_ids := by
      rw [hids]
      exact Finset.not_mem_empty q
    rw [step_single _ q e he hq0]

/-- C4 witness: one concrete duplicate is suppressed below the window bound;
from a window holding the 100 ids `0..99`, recording id 200 clears the whole
window and a previously-seen id (3) is delivered again. -/
theorem C4_dedup_window_witness :
    (process_bluetooth_data initState [3, 0, 1, 9]).2 = [[9]] ∧
    (run initState [[3, 0, 1, 9], [3, 0, 1, 9]]).2 = [[9]] ∧
    (process_bluetooth_data (⟨[], Finset.range 100⟩ : BTState)
      [200, 0, 1, 5]).1.last_packet_ids = ∅ ∧
    (process_bluetooth_data (process_bluetooth_data (⟨[], Finset.range 100⟩ : BTState)
      [200, 0, 1, 5]).1 [3, 0, 1, 9]).2 = [[9]] := by
  have h1 := C4_dedup_window initState 3 [9] (by decide) (by decide) (by decide)
  have h2 := C4_dedup_window (⟨[], Finset.range 100⟩ : BTState) 200 [5]
    (by decide) (by decide) (by decide)
  have h2c : 100 < (insert 200 (Finset.range 100)).card := by decide
  exact ⟨h1.1, (h1.2.1 (by decide)).2, (h2.2.2 h2c).1,
    (h2.2.2 h2c).2 3 [9] (by decide) (by decide)⟩

end BluetoothV
